import Mathlib

/-!
Shallow embedding of the `pair` package of gocryptotrader (currency-pair
parsing, comparison and list utilities).

Modelling conventions:
* a Go string is a `List Char`;
* Go runtime panics (index out of range, slice bounds out of range) are the
  failure branch of an `Option` result: a constructor that can panic returns
  `Option CurrencyPair`, with `none` for the panic;
* `strings.Split`, `strings.Index`, `strings.Contains` and Go slice
  expressions `s[a:b]` are embedded below as `goSplit`, `goIndex`,
  `goContains` and `goSlice`.
-/

/-- Does the pattern `pat` stand at the very front of `s`?  This is the
prefix test that `strings.Index` and `strings.Split` perform at each scan
position. -/
def leadsWith (pat s : List Char) : Bool :=
  match pat, s with
  | [], _ => true
  | _ :: _, [] => false
  | a :: ps, b :: ss => a = b && leadsWith ps ss

/-- Embedding of Go `strings.Index(s, pat)`: the index of the first
occurrence of `pat` in `s`, or `-1` when `pat` does not occur. -/
def goIndex (s pat : List Char) : Int :=
  if leadsWith pat s then 0
  else
    match s with
    | [] => -1
    | _ :: t =>
      let r := goIndex t pat
      if r = -1 then -1 else r + 1

/-- Embedding of Go `strings.Contains(s, pat)`: `Index(s, pat) >= 0`. -/
def goContains (s pat : List Char) : Bool :=
  decide (0 ≤ goIndex s pat)

/-- Embedding of the Go slice expression `s[a:b]` (`s[a:]` is `s[a:len(s)]`):
`none` models the "slice bounds out of range" panic when `a ≤ b ≤ len(s)`
fails. -/
def goSlice (s : List Char) (a b : Nat) : Option (List Char) :=
  if a ≤ b ∧ b ≤ s.length then some ((s.take b).drop a) else none

/-- Helper for `goSplit`: find the first occurrence of `sep` in `s`,
returning the text before it and the text after it (the matched `sep`
removed), or `none` when `sep` does not occur. -/
def breakAt (sep : List Char) : List Char → Option (List Char × List Char)
  | [] => if leadsWith sep [] then some ([], []) else none
  | c :: rest =>
    if leadsWith sep (c :: rest) then some ([], (c :: rest).drop sep.length)
    else
      match breakAt sep rest with
      | none => none
      | some (pre, post) => some (c :: pre, post)

/-- A found occurrence of a non-empty separator consumes at least one
character: the remainder handed back by `breakAt` is strictly shorter. -/
theorem breakAt_length_lt (d : Char) (ds : List Char) :
    ∀ (s pre post : List Char),
      breakAt (d :: ds) s = some (pre, post) → post.length < s.length := by
  intro s
  induction s with
  | nil =>
    intro pre post h
    simp [breakAt, leadsWith] at h
  | cons c rest ih =>
    intro pre post h
    simp only [breakAt] at h
    by_cases hl : leadsWith (d :: ds) (c :: rest) = true
    · rw [if_pos hl] at h
      simp only [List.length_cons, List.drop_succ_cons, Option.some.injEq,
        Prod.mk.injEq] at h
      obtain ⟨h1, h2⟩ := h
      subst h2
      simp only [List.length_drop, List.length_cons]
      omega
    · rw [if_neg hl] at h
      cases hb : breakAt (d :: ds) rest with
      | none => rw [hb] at h; simp at h
      | some pr =>
        obtain ⟨pre1, post1⟩ := pr
        rw [hb] at h
        simp only [Option.some.injEq, Prod.mk.injEq] at h
        obtain ⟨h1, h2⟩ := h
        subst h2
        exact Nat.lt_succ_of_lt (ih pre1 post1 hb)

/-- Splitting with a non-empty separator `d :: ds`: cut at each occurrence,
left to right (the recursive core of Go `strings.Split`). -/
def splitNE (d : Char) (ds : List Char) (s : List Char) : List (List Char) :=
  match h : breakAt (d :: ds) s with
  | none => [s]
  | some (pre, post) => pre :: splitNE d ds post
termination_by s.length
decreasing_by exact breakAt_length_lt d ds s pre post h

/-- Embedding of Go `strings.Split(s, sep)`: with an empty separator the
string explodes into its characters, otherwise it is cut around every
non-overlapping occurrence of `sep`, left to right. -/
def goSplit (s sep : List Char) : List (List Char) :=
  match sep with
  | [] => s.map fun c => [c]
  | d :: ds => splitNE d ds s

/-- A currency code; the Go source wraps `string` in the named type
`CurrencyItem`. -/
abbrev CurrencyItem := List Char

/-- Embedding of `CurrencyItem.Upper` (`strings.ToUpper`). -/
def CurrencyItem.Upper (c : CurrencyItem) : CurrencyItem :=
  c.map Char.toUpper

/-- Embedding of `CurrencyItem.Lower` (`strings.ToLower`). -/
def CurrencyItem.Lower (c : CurrencyItem) : CurrencyItem :=
  c.map Char.toLower

/-- Modelled from the spec: `common.StringToUpper` lives in the `common`
package, which is not among the provided sources; the spec describes
`containsCurrency` as a case-insensitive comparison of either leg, so the
helper is case folding to upper case. -/
def StringToUpper (s : List Char) : List Char :=
  s.map Char.toUpper

/-- Embedding of the `CurrencyPair` struct. -/
structure CurrencyPair where
  Delimiter : List Char
  FirstCurrency : CurrencyItem
  SecondCurrency : CurrencyItem
deriving DecidableEq

/-- Embedding of `CurrencyPair.Equal`: case-insensitive comparison of the
two legs; when `exact` is false the swapped pairing is also accepted.  The
delimiter field is never consulted. -/
def CurrencyPair.Equal (c p : CurrencyPair) (exact : Bool) : Bool :=
  if !exact then
    decide ((CurrencyItem.Upper c.FirstCurrency = CurrencyItem.Upper p.FirstCurrency ∧
             CurrencyItem.Upper c.SecondCurrency = CurrencyItem.Upper p.SecondCurrency) ∨
            (CurrencyItem.Upper c.FirstCurrency = CurrencyItem.Upper p.SecondCurrency ∧
             CurrencyItem.Upper c.SecondCurrency = CurrencyItem.Upper p.FirstCurrency))
  else
    decide (CurrencyItem.Upper c.FirstCurrency = CurrencyItem.Upper p.FirstCurrency ∧
            CurrencyItem.Upper c.SecondCurrency = CurrencyItem.Upper p.SecondCurrency)

/-- Embedding of `CurrencyPair.Swap`: exchange the two legs, keep the
delimiter. -/
def CurrencyPair.Swap (c : CurrencyPair) : CurrencyPair :=
  { c with FirstCurrency := c.SecondCurrency, SecondCurrency := c.FirstCurrency }

/-- Embedding of `NewCurrencyPairDelimiter`: `result := strings.Split(...)`,
then read `result[0]` and `result[1]`; `none` models the index-out-of-range
panic when the split yields fewer than two parts. -/
def NewCurrencyPairDelimiter (currency delimiter : List Char) : Option CurrencyPair :=
  match goSplit currency delimiter with
  | r0 :: r1 :: _ => some ⟨delimiter, r0, r1⟩
  | _ => none

/-- Embedding of `NewCurrencyPair`: direct construction with an empty
delimiter. -/
def NewCurrencyPair (firstCurrency secondCurrency : List Char) : CurrencyPair :=
  ⟨[], firstCurrency, secondCurrency⟩

/-- Embedding of `NewCurrencyPairFromIndex`: `i := strings.Index(currency,
index)`; when `i == 0` slice at `len(index)`, otherwise slice at `i` — which
panics (`none`) when `i` is `-1`, i.e. when `index` does not occur. -/
def NewCurrencyPairFromIndex (currency index : List Char) : Option CurrencyPair :=
  let i := goIndex currency index
  if i = 0 then
    match goSlice currency 0 index.length,
          goSlice currency index.length currency.length with
    | some f, some s => some (NewCurrencyPair f s)
    | _, _ => none
  else if 0 ≤ i then
    match goSlice currency 0 i.toNat, goSlice currency i.toNat currency.length with
    | some f, some s => some (NewCurrencyPair f s)
    | _, _ => none
  else none

/-- Embedding of `NewCurrencyPairFromString`: the loop over the delimiter
table `["_", "-"]` is unrolled into its two iterations; with no delimiter
present the fixed slices `currency[0:3]` and `currency[3:]` apply, whose
bounds panic (`none`) on strings shorter than three characters. -/
def NewCurrencyPairFromString (currency : List Char) : Option CurrencyPair :=
  if goContains currency ['_'] then NewCurrencyPairDelimiter currency ['_']
  else if goContains currency ['-'] then NewCurrencyPairDelimiter currency ['-']
  else
    match goSlice currency 0 3, goSlice currency 3 currency.length with
    | some f, some s => some (NewCurrencyPair f s)
    | _, _ => none

/-- Embedding of `ContainsCurrency`: either leg, upper-cased, equals the
upper-cased code. -/
def ContainsCurrency (p : CurrencyPair) (c : List Char) : Bool :=
  decide (CurrencyItem.Upper p.FirstCurrency = StringToUpper c ∨
          CurrencyItem.Upper p.SecondCurrency = StringToUpper c)

/-- Embedding of `RemovePairsByFilter`: the append-accumulating loop that
skips every pair containing the filtered currency, written as the
equivalent order-preserving recursion. -/
def RemovePairsByFilter (p : List CurrencyPair) (filterCode : List Char) : List CurrencyPair :=
  match p with
  | [] => []
  | x :: xs =>
    if ContainsCurrency x filterCode then RemovePairsByFilter xs filterCode
    else x :: RemovePairsByFilter xs filterCode

/-- Embedding of `CopyPairFormat`: first match wins; the zero-value
`CurrencyPair` is returned when nothing matches. -/
def CopyPairFormat (p : CurrencyPair) (pairs : List CurrencyPair) (exact : Bool) : CurrencyPair :=
  match pairs with
  | [] => ⟨[], [], []⟩
  | x :: xs => if CurrencyPair.Equal p x exact then x else CopyPairFormat p xs exact

/-! ### Properties of the string primitives -/

/-- The prefix test succeeds exactly when the string extends the pattern. -/
theorem leadsWith_iff (pat : List Char) :
    ∀ s, leadsWith pat s = true ↔ ∃ t, s = pat ++ t := by
  induction pat with
  | nil =>
    intro s
    simp [leadsWith]
  | cons a ps ih =>
    intro s
    cases s with
    | nil =>
      simp [leadsWith]
    | cons b ss =>
      simp only [leadsWith, Bool.and_eq_true, decide_eq_true_eq, ih, List.cons_append,
        List.cons.injEq]
      constructor
      · rintro ⟨rfl, t, rfl⟩
        exact ⟨t, rfl, rfl⟩
      · rintro ⟨t, rfl, rfl⟩
        exact ⟨rfl, t, rfl⟩

/-- A successful `breakAt` decomposes the string around the separator. -/
theorem breakAt_some_decomp (sep : List Char) :
    ∀ s pre post, breakAt sep s = some (pre, post) → s = pre ++ sep ++ post := by
  intro s
  induction s with
  | nil =>
    intro pre post h
    cases hsep : sep with
    | nil =>
      subst hsep
      simp [breakAt, leadsWith] at h
      obtain ⟨rfl, rfl⟩ := h
      rfl
    | cons x xs =>
      subst hsep
      simp [breakAt, leadsWith] at h
  | cons c rest ih =>
    intro pre post h
    simp only [breakAt] at h
    by_cases hl : leadsWith sep (c :: rest) = true
    · rw [if_pos hl] at h
      simp only [Option.some.injEq, Prod.mk.injEq] at h
      obtain ⟨rfl, h2⟩ := h
      obtain ⟨t, ht⟩ := (leadsWith_iff sep (c :: rest)).mp hl
      rw [ht, List.drop_left] at h2
      rw [ht, ← h2]
      simp
    · rw [if_neg hl] at h
      cases hb : breakAt sep rest with
      | none => rw [hb] at h; simp at h
      | some pr =>
        obtain ⟨pre1, post1⟩ := pr
        rw [hb] at h
        simp only [Option.some.injEq, Prod.mk.injEq] at h
        obtain ⟨h1, h2⟩ := h
        subst h1
        subst h2
        have hrest := ih pre1 post1 hb
        simp [hrest]

/-- When `breakAt` finds nothing, the separator has no occurrence at all. -/
theorem breakAt_none_not_occurs (sep : List Char) :
    ∀ s, breakAt sep s = none → ¬ ∃ a b, s = a ++ sep ++ b := by
  intro s
  induction s with
  | nil =>
    intro h
    rintro ⟨a, b, hab⟩
    have ha : a = [] ∧ sep ++ b = [] := by
      constructor
      · cases a with
        | nil => rfl
        | cons x xs => simp at hab
      · cases a with
        | nil => simpa using hab.symm
        | cons x xs => simp at hab
    have hsep : sep = [] := by
      cases sep with
      | nil => rfl
      | cons x xs => simp at ha
    subst hsep
    simp [breakAt, leadsWith] at h
  | cons c rest ih =>
    intro h
    rintro ⟨a, b, hab⟩
    simp only [breakAt] at h
    by_cases hl : leadsWith sep (c :: rest) = true
    · rw [if_pos hl] at h; simp at h
    · rw [if_neg hl] at h
      cases a with
      | nil =>
        exact hl ((leadsWith_iff sep (c :: rest)).mpr ⟨b, by simpa using hab⟩)
      | cons x a2 =>
        simp only [List.cons_append, List.cons.injEq] at hab
        cases hb : breakAt sep rest with
        | none => exact ih hb ⟨a2, b, hab.2⟩
        | some pr =>
          obtain ⟨pre1, post1⟩ := pr
          rw [hb] at h
          simp at h

/-- An occurrence of the separator forces `breakAt` to succeed. -/
theorem breakAt_some_of_occurs (sep s a b : List Char) (hab : s = a ++ sep ++ b) :
    ∃ pre post, breakAt sep s = some (pre, post) := by
  cases hb : breakAt sep s with
  | none => exact absurd ⟨a, b, hab⟩ (breakAt_none_not_occurs sep s hb)
  | some pr => exact ⟨pr.1, pr.2, by simp⟩

/-- `goIndex` returns `-1` exactly on the strings where `breakAt` fails. -/
theorem goIndex_breakAt_none (sep : List Char) :
    ∀ s, breakAt sep s = none → goIndex s sep = -1 := by
  intro s
  induction s with
  | nil =>
    intro h
    simp only [breakAt] at h
    by_cases hl : leadsWith sep [] = true
    · rw [if_pos hl] at h; simp at h
    · simp [goIndex, hl]
  | cons c rest ih =>
    intro h
    simp only [breakAt] at h
    by_cases hl : leadsWith sep (c :: rest) = true
    · rw [if_pos hl] at h; simp at h
    · rw [if_neg hl] at h
      cases hb : breakAt sep rest with
      | none =>
        have hr := ih hb
        simp [goIndex, hl, hr]
      | some pr =>
        obtain ⟨pre1, post1⟩ := pr
        rw [hb] at h
        simp at h

/-- On a successful `breakAt`, `goIndex` reports the length of the prefix
that precedes the separator. -/
theorem goIndex_breakAt_some (sep : List Char) :
    ∀ s pre post, breakAt sep s = some (pre, post) →
      goIndex s sep = Int.ofNat pre.length := by
  intro s
  induction s with
  | nil =>
    intro pre post h
    simp only [breakAt] at h
    by_cases hl : leadsWith sep [] = true
    · rw [if_pos hl] at h
      simp only [Option.some.injEq, Prod.mk.injEq] at h
      obtain ⟨h1, h2⟩ := h
      subst h1
      simp [goIndex, hl]
    · rw [if_neg hl] at h; simp at h
  | cons c rest ih =>
    intro pre post h
    simp only [breakAt] at h
    by_cases hl : leadsWith sep (c :: rest) = true
    · rw [if_pos hl] at h
      simp only [Option.some.injEq, Prod.mk.injEq] at h
      obtain ⟨h1, h2⟩ := h
      subst h1
      simp [goIndex, hl]
    · rw [if_neg hl] at h
      cases hb : breakAt sep rest with
      | none => rw [hb] at h; simp at h
      | some pr =>
        obtain ⟨pre1, post1⟩ := pr
        rw [hb] at h
        simp only [Option.some.injEq, Prod.mk.injEq] at h
        obtain ⟨h1, h2⟩ := h
        subst h1
        have hr := ih pre1 post1 hb
        simp only [goIndex, hl, hr, Int.ofNat_eq_coe]
        rw [if_neg (by simp), if_neg (by omega)]
        simp only [List.length_cons]
        omega

/-- Unfolding `splitNE` when the separator does not occur. -/
theorem splitNE_of_breakAt_none (d : Char) (ds s : List Char)
    (h : breakAt (d :: ds) s = none) : splitNE d ds s = [s] := by
  rw [splitNE, h]

/-- Unfolding `splitNE` at a found occurrence. -/
theorem splitNE_of_breakAt_some (d : Char) (ds s pre post : List Char)
    (h : breakAt (d :: ds) s = some (pre, post)) :
    splitNE d ds s = pre :: splitNE d ds post := by
  rw [splitNE, h]

/-- Any exhibited occurrence makes `goContains` answer `true`. -/
theorem goContains_of_occurs (s pat a b : List Char) (h : s = a ++ pat ++ b) :
    goContains s pat = true := by
  obtain ⟨pre, post, hb⟩ := breakAt_some_of_occurs pat s a b h
  have hidx := goIndex_breakAt_some pat s pre post hb
  simp [goContains, hidx]

/-- A negative `goContains` answer makes `breakAt` fail. -/
theorem breakAt_none_of_not_goContains (pat s : List Char)
    (h : goContains s pat = false) : breakAt pat s = none := by
  cases hb : breakAt pat s with
  | none => rfl
  | some pr =>
    have hocc := breakAt_some_decomp pat s pr.1 pr.2 (by simpa using hb)
    have := goContains_of_occurs s pat pr.1 pr.2 hocc
    rw [h] at this
    cases this

/-- `strings.Index` answers `-1` exactly when the pattern has no occurrence. -/
theorem goIndex_eq_neg_one_iff (s pat : List Char) :
    goIndex s pat = -1 ↔ ¬ ∃ a b, s = a ++ pat ++ b := by
  cases hb : breakAt pat s with
  | none =>
    have h1 := goIndex_breakAt_none pat s hb
    have h2 := breakAt_none_not_occurs pat s hb
    exact iff_of_true h1 h2
  | some pr =>
    have h1 := goIndex_breakAt_some pat s pr.1 pr.2 (by simpa using hb)
    have h2 := breakAt_some_decomp pat s pr.1 pr.2 (by simpa using hb)
    refine iff_of_false (by rw [h1, Int.ofNat_eq_coe]; omega) ?_
    intro hno
    exact hno ⟨pr.1, pr.2, h2⟩

/-- Reduction of the slice `s[0:b]` under its bound. -/
theorem goSlice_zero (s : List Char) (b : Nat) (h : b ≤ s.length) :
    goSlice s 0 b = some (s.take b) := by
  simp [goSlice, h]

/-- Reduction of the slice `s[a:len(s)]` under its bound. -/
theorem goSlice_to_end (s : List Char) (a : Nat) (h : a ≤ s.length) :
    goSlice s a s.length = some (s.drop a) := by
  simp [goSlice, h, List.take_length]

/-- When the exhibited occurrence of the separator sits at the position
that `strings.Index` reports, it is the first occurrence, and `breakAt`
cuts exactly there. -/
theorem breakAt_eq_of_goIndex (x delim y : List Char)
    (hidx : goIndex (x ++ delim ++ y) delim = Int.ofNat x.length) :
    breakAt delim (x ++ delim ++ y) = some (x, y) := by
  obtain ⟨pre, post, hb⟩ :=
    breakAt_some_of_occurs delim (x ++ delim ++ y) x y rfl
  have hglen := goIndex_breakAt_some delim _ pre post hb
  rw [hidx] at hglen
  have hlen : x.length = pre.length := by
    simpa [Int.ofNat_eq_coe] using hglen
  have hdecomp := breakAt_some_decomp delim _ pre post hb
  obtain ⟨hpre, htail⟩ :=
    List.append_inj hdecomp (by simp [List.length_append, hlen])
  have hpre2 : x = pre := List.append_inj_left' hpre rfl
  rw [hb, ← hpre2, ← htail]

/-- Reconstruction law for `NewCurrencyPairDelimiter`: when the exhibited
occurrence of the (non-empty) delimiter is the first one in the whole
string and the delimiter does not occur in the second part, the split
returns exactly those two parts. -/
theorem NewCurrencyPairDelimiter_rebuild (first delim second : List Char)
    (hne : delim ≠ [])
    (hidx : goIndex (first ++ delim ++ second) delim = Int.ofNat first.length)
    (hsec : goContains second delim = false) :
    NewCurrencyPairDelimiter (first ++ delim ++ second) delim =
      some ⟨delim, first, second⟩ := by
  obtain ⟨d, ds, rfl⟩ : ∃ d ds, delim = d :: ds := by
    cases delim with
    | nil => exact absurd rfl hne
    | cons d ds => exact ⟨d, ds, rfl⟩
  have hb := breakAt_eq_of_goIndex first (d :: ds) second hidx
  have hsecnone := breakAt_none_of_not_goContains (d :: ds) second hsec
  have h1 := splitNE_of_breakAt_some d ds _ first second hb
  rw [splitNE_of_breakAt_none d ds second hsecnone] at h1
  simp only [NewCurrencyPairDelimiter, goSplit]
  rw [h1]

/-- Evaluation of `NewCurrencyPairFromIndex` whenever the token occurs:
the cut point is `len(index)` for a match at position `0` and the match
position itself otherwise. -/
theorem NewCurrencyPairFromIndex_of_goIndex (currency index : List Char) (n : Nat)
    (h : goIndex currency index = Int.ofNat n) :
    NewCurrencyPairFromIndex currency index =
      some (NewCurrencyPair
        (currency.take (if n = 0 then index.length else n))
        (currency.drop (if n = 0 then index.length else n))) := by
  have hocc : ∃ pre post, breakAt index currency = some (pre, post) := by
    cases hb : breakAt index currency with
    | none =>
      have h2 := goIndex_breakAt_none index currency hb
      rw [h] at h2
      simp only [Int.ofNat_eq_coe] at h2
      omega
    | some pr => exact ⟨pr.1, pr.2, by simp⟩
  obtain ⟨pre, post, hb⟩ := hocc
  have hglen := goIndex_breakAt_some index currency pre post hb
  rw [h] at hglen
  have hn : n = pre.length := by simpa [Int.ofNat_eq_coe] using hglen
  have hdecomp := breakAt_some_decomp index currency pre post hb
  have hbound : pre.length + index.length ≤ currency.length := by
    rw [hdecomp]
    simp only [List.length_append]
    omega
  by_cases hn0 : n = 0
  · have hilen : index.length ≤ currency.length := by omega
    simp only [NewCurrencyPairFromIndex, h, hn0]
    rw [if_pos (by simp)]
    rw [goSlice_zero currency index.length hilen,
        goSlice_to_end currency index.length hilen]
    simp
  · have hnlen : n ≤ currency.length := by omega
    simp only [NewCurrencyPairFromIndex, h]
    rw [if_neg (by simp only [Int.ofNat_eq_coe]; omega),
        if_pos (by simp only [Int.ofNat_eq_coe]; omega)]
    simp only [Int.ofNat_eq_coe, Int.toNat_ofNat]
    rw [goSlice_zero currency n hnlen, goSlice_to_end currency n hnlen]
    simp [hn0]

/-- A zero answer from `strings.Index` means the pattern heads the string. -/
theorem leadsWith_of_goIndex_zero (s pat : List Char) (h : goIndex s pat = 0) :
    leadsWith pat s = true := by
  cases hb : breakAt pat s with
  | none =>
    have h2 := goIndex_breakAt_none pat s hb
    rw [h] at h2
    exact absurd h2 (by decide)
  | some pr =>
    have hlen := goIndex_breakAt_some pat s pr.1 pr.2 (by simpa using hb)
    rw [h] at hlen
    have hlen0 : pr.1.length = 0 := by
      simpa [Int.ofNat_eq_coe] using hlen.symm
    have hpre : pr.1 = [] := List.length_eq_zero.mp hlen0
    have hdecomp := breakAt_some_decomp pat s pr.1 pr.2 (by simpa using hb)
    rw [hpre] at hdecomp
    simp only [List.nil_append] at hdecomp
    exact (leadsWith_iff pat s).mpr ⟨pr.2, hdecomp⟩

/-- A non-negative answer from `strings.Index` points at an occurrence of
the pattern: the pattern heads the rest of the string from there on. -/
theorem leadsWith_drop_of_goIndex (s pat : List Char) (n : Nat)
    (h : goIndex s pat = Int.ofNat n) :
    leadsWith pat (s.drop n) = true := by
  cases hb : breakAt pat s with
  | none =>
    have h2 := goIndex_breakAt_none pat s hb
    rw [h] at h2
    exact absurd h2 (by simp only [Int.ofNat_eq_coe]; omega)
  | some pr =>
    have hlen := goIndex_breakAt_some pat s pr.1 pr.2 (by simpa using hb)
    rw [h] at hlen
    have hn : n = pr.1.length := by simpa [Int.ofNat_eq_coe] using hlen
    have hdecomp := breakAt_some_decomp pat s pr.1 pr.2 (by simpa using hb)
    subst hn
    rw [hdecomp, List.append_assoc, List.drop_left]
    exact (leadsWith_iff pat _).mpr ⟨pr.2, rfl⟩

/-! ### Claims -/

/-- C1: for every raw string and delimiter such that the delimiter does not
occur in the raw string, `NewCurrencyPairDelimiter` fails immediately (the
embedded failure `none`, the Go index-out-of-range panic on `result[1]`)
rather than returning a pair. -/
theorem C1_fromDelimited_fails_without_occurrence (raw delim : List Char)
    (h : ¬ ∃ a b, raw = a ++ delim ++ b) :
    NewCurrencyPairDelimiter raw delim = none := by
  cases delim with
  | nil => exact absurd ⟨[], raw, rfl⟩ h
  | cons d ds =>
    have hnone : breakAt (d :: ds) raw = none := by
      cases hb : breakAt (d :: ds) raw with
      | none => rfl
      | some pr =>
        exact absurd
          ⟨pr.1, pr.2, breakAt_some_decomp (d :: ds) raw pr.1 pr.2 (by simpa using hb)⟩ h
    simp [NewCurrencyPairDelimiter, goSplit, splitNE_of_breakAt_none d ds raw hnone]

/-- Witness for C1 at raw = "BTCUSD", delimiter = "_". -/
theorem C1_fromDelimited_fails_without_occurrence_witness :
    NewCurrencyPairDelimiter "BTCUSD".toList "_".toList = none :=
  C1_fromDelimited_fails_without_occurrence "BTCUSD".toList "_".toList
    (by
      rintro ⟨a, b, hab⟩
      exact absurd (goContains_of_occurs "BTCUSD".toList "_".toList a b hab) (by decide))

/-- C2 counterexample: on "a_b_c" with delimiter "_" the second currency is
"b" — the segment up to the next occurrence — not the whole remainder
"b_c" that the claim asserts. -/
theorem C2_counterexample_second_leg_not_remainder :
    NewCurrencyPairDelimiter ['a', '_', 'b', '_', 'c'] ['_'] =
      some ⟨['_'], ['a'], ['b']⟩ ∧ (['b'] : List Char) ≠ ['b', '_', 'c'] := by
  refine ⟨?_, by decide⟩
  have hb1 : breakAt ['_'] ['a', '_', 'b', '_', 'c'] = some (['a'], ['b', '_', 'c']) := by
    decide
  have hb2 : breakAt ['_'] ['b', '_', 'c'] = some (['b'], ['c']) := by decide
  have h1 := splitNE_of_breakAt_some '_' [] ['a', '_', 'b', '_', 'c'] ['a'] ['b', '_', 'c'] hb1
  rw [splitNE_of_breakAt_some '_' [] ['b', '_', 'c'] ['b'] ['c'] hb2] at h1
  simp only [NewCurrencyPairDelimiter, goSplit]
  rw [h1]

/-- C2 (amended): `NewCurrencyPairDelimiter` cuts at the first occurrence
of the non-empty delimiter, but the second currency is only the segment up
to the NEXT occurrence (Go `strings.Split` keeps `result[1]`), not the
whole remainder; the reconstruction law holds provided additionally the
exhibited occurrence is the first one in the whole string (ruling out
overlaps such as first="a", delim="aa") and the delimiter does not occur
in the second part. -/
theorem C2_fromDelimited_first_occurrence_split (first second tail delim : List Char) :
    (delim ≠ [] →
      goIndex (first ++ delim ++ second) delim = Int.ofNat first.length →
      goContains second delim = false →
      NewCurrencyPairDelimiter (first ++ delim ++ second) delim =
        some ⟨delim, first, second⟩) ∧
    (delim ≠ [] →
      goIndex (first ++ delim ++ (second ++ delim ++ tail)) delim = Int.ofNat first.length →
      goIndex (second ++ delim ++ tail) delim = Int.ofNat second.length →
      NewCurrencyPairDelimiter (first ++ delim ++ (second ++ delim ++ tail)) delim =
        some ⟨delim, first, second⟩) := by
  constructor
  · intro hne hidx hsec
    exact NewCurrencyPairDelimiter_rebuild first delim second hne hidx hsec
  · intro hne hidx1 hidx2
    obtain ⟨d, ds, rfl⟩ : ∃ d ds, delim = d :: ds := by
      cases delim with
      | nil => exact absurd rfl hne
      | cons d ds => exact ⟨d, ds, rfl⟩
    have hbA := breakAt_eq_of_goIndex first (d :: ds) (second ++ (d :: ds) ++ tail) hidx1
    have hbB := breakAt_eq_of_goIndex second (d :: ds) tail hidx2
    have h1 := splitNE_of_breakAt_some d ds _ first _ hbA
    rw [splitNE_of_breakAt_some d ds _ second tail hbB] at h1
    simp only [NewCurrencyPairDelimiter, goSplit]
    rw [h1]

/-- Witness for C2 at first = "btc", delim = "_", second = "usd". -/
theorem C2_fromDelimited_first_occurrence_split_witness :
    NewCurrencyPairDelimiter ("btc".toList ++ "_".toList ++ "usd".toList) "_".toList =
      some ⟨"_".toList, "btc".toList, "usd".toList⟩ :=
  (C2_fromDelimited_first_occurrence_split "btc".toList "usd".toList [] "_".toList).1
    (by decide) (by decide) (by decide)

/-- C3 counterexample: "BTC" has no delimiter, its split yields an empty
second segment, and `NewCurrencyPairFromString` still returns a pair
("BTC", "") instead of failing on the empty segment. -/
theorem C3_counterexample_empty_leg_accepted :
    NewCurrencyPairFromString "BTC".toList = some ⟨[], "BTC".toList, []⟩ := by
  decide

/-- C3 (amended): with no "_" and no "-" present and fewer than three
characters, `NewCurrencyPairFromString` fails (the embedded slice-bounds
panic, `none`); the code performs NO emptiness check on the resulting
segments, so an empty leg does not cause a failure. -/
theorem C3_fromString_short_without_delimiter_fails (raw : List Char)
    (h1 : goContains raw ['_'] = false)
    (h2 : goContains raw ['-'] = false)
    (h3 : raw.length < 3) :
    NewCurrencyPairFromString raw = none := by
  have h4 : goSlice raw 0 3 = none := by
    simp only [goSlice]
    rw [if_neg]
    intro hc
    omega
  have h5 : goSlice raw 3 raw.length = none := by
    simp only [goSlice]
    rw [if_neg]
    intro hc
    omega
  simp only [NewCurrencyPairFromString, h1, h2, Bool.false_eq_true, if_false]
  rw [h4, h5]

/-- Witness for C3 at raw = "ab". -/
theorem C3_fromString_short_without_delimiter_fails_witness :
    NewCurrencyPairFromString "ab".toList = none :=
  C3_fromString_short_without_delimiter_fails "ab".toList
    (by decide) (by decide) (by decide)

/-- C4: `NewCurrencyPairFromString` tries "_" first, then "-", returning
the delimited split when one is contained; with neither contained it
returns the fixed 3-character split with an empty delimiter; in particular
"BTCUSD" gives ("BTC", "USD", "") and "btc_usd" gives ("btc", "usd", "_"). -/
theorem C4_fromString_delimiter_order (raw : List Char) :
    (goContains raw ['_'] = true →
      NewCurrencyPairFromString raw = NewCurrencyPairDelimiter raw ['_']) ∧
    (goContains raw ['_'] = false → goContains raw ['-'] = true →
      NewCurrencyPairFromString raw = NewCurrencyPairDelimiter raw ['-']) ∧
    (goContains raw ['_'] = false → goContains raw ['-'] = false →
      3 ≤ raw.length →
      NewCurrencyPairFromString raw = some ⟨[], raw.take 3, raw.drop 3⟩) ∧
    NewCurrencyPairFromString "BTCUSD".toList =
      some ⟨[], "BTC".toList, "USD".toList⟩ ∧
    NewCurrencyPairFromString "btc_usd".toList =
      some ⟨['_'], "btc".toList, "usd".toList⟩ := by
  refine ⟨?_, ?_, ?_, by decide, ?_⟩
  · intro h
    simp [NewCurrencyPairFromString, h]
  · intro h1 h2
    simp [NewCurrencyPairFromString, h1, h2]
  · intro h1 h2 h3
    simp only [NewCurrencyPairFromString, h1, h2, Bool.false_eq_true, if_false]
    rw [goSlice_zero raw 3 h3, goSlice_to_end raw 3 h3]
    rfl
  · have hraw : "btc_usd".toList = "btc".toList ++ ['_'] ++ "usd".toList := by decide
    have hc : goContains "btc_usd".toList ['_'] = true := by decide
    have hs := NewCurrencyPairDelimiter_rebuild "btc".toList ['_'] "usd".toList
      (by decide) (by decide) (by decide)
    simp only [NewCurrencyPairFromString, hc, if_true]
    rw [hraw]
    exact hs

/-- Witness for C4 at raw = "BTCUSD" (the no-delimiter branch). -/
theorem C4_fromString_delimiter_order_witness :
    NewCurrencyPairFromString "BTCUSD".toList =
      some ⟨[], "BTCUSD".toList.take 3, "BTCUSD".toList.drop 3⟩ :=
  (C4_fromString_delimiter_order "BTCUSD".toList).2.2.1 (by decide) (by decide) (by decide)

/-- C5: `NewCurrencyPairFromIndex` is asymmetric in the match position.
When the first occurrence of the token starts at position 0 the first
currency is exactly the token and the second is the remainder after it
(token excluded); when it starts later the first currency is everything
before the occurrence and the second is everything from the occurrence
onward, the token included (the second leg still starts with the token). -/
theorem C5_fromIndex_position_asymmetry (currency index : List Char) :
    (goIndex currency index = 0 →
      NewCurrencyPairFromIndex currency index =
        some (NewCurrencyPair index (currency.drop index.length))) ∧
    (0 < goIndex currency index →
      NewCurrencyPairFromIndex currency index =
        some (NewCurrencyPair
          (currency.take (goIndex currency index).toNat)
          (currency.drop (goIndex currency index).toNat)) ∧
      leadsWith index (currency.drop (goIndex currency index).toNat) = true) := by
  constructor
  · intro h
    have hlw := leadsWith_of_goIndex_zero currency index h
    obtain ⟨t, rfl⟩ := (leadsWith_iff index currency).mp hlw
    have h0 : goIndex (index ++ t) index = Int.ofNat 0 := by simpa using h
    have hev := NewCurrencyPairFromIndex_of_goIndex (index ++ t) index 0 h0
    rw [if_pos rfl] at hev
    rw [hev, List.take_left]
  · intro h
    obtain ⟨n, hn⟩ : ∃ n : Nat, goIndex currency index = Int.ofNat n := by
      cases hb : breakAt index currency with
      | none =>
        have h2 := goIndex_breakAt_none index currency hb
        rw [h2] at h
        exact absurd h (by decide)
      | some pr =>
        exact ⟨pr.1.length, goIndex_breakAt_some index currency pr.1 pr.2 (by simpa using hb)⟩
    have hn0 : n ≠ 0 := by
      intro hz
      subst hz
      rw [hn] at h
      exact absurd h (by decide)
    have hev := NewCurrencyPairFromIndex_of_goIndex currency index n hn
    rw [if_neg hn0] at hev
    refine ⟨?_, ?_⟩
    · rw [hev, hn]
      simp only [Int.ofNat_eq_coe, Int.toNat_ofNat]
    · rw [hn]
      simp only [Int.ofNat_eq_coe, Int.toNat_ofNat]
      exact leadsWith_drop_of_goIndex currency index n hn
/-- Witness for C5: a match at position 0 ("BTCUSD"/"BTC") and a match at
position 1 ("XBTCUSD"/"BTC"). -/
theorem C5_fromIndex_position_asymmetry_witness :
    NewCurrencyPairFromIndex "BTCUSD".toList "BTC".toList =
      some (NewCurrencyPair "BTC".toList ("BTCUSD".toList.drop "BTC".toList.length)) ∧
    NewCurrencyPairFromIndex "XBTCUSD".toList "BTC".toList =
      some (NewCurrencyPair
        ("XBTCUSD".toList.take (goIndex "XBTCUSD".toList "BTC".toList).toNat)
        ("XBTCUSD".toList.drop (goIndex "XBTCUSD".toList "BTC".toList).toNat)) :=
  ⟨(C5_fromIndex_position_asymmetry "BTCUSD".toList "BTC".toList).1 (by decide),
   ((C5_fromIndex_position_asymmetry "XBTCUSD".toList "BTC".toList).2 (by decide)).1⟩

/-- C9: `NewCurrencyPairFromIndex` reaches its error branch (the embedded
slice-bounds panic on `currency[0:-1]`, `none`) exactly when the token has
no occurrence in the raw string; under the occurrence precondition it
always returns a pair. -/
theorem C9_fromIndex_none_iff_no_occurrence (currency index : List Char) :
    NewCurrencyPairFromIndex currency index = none ↔
      ¬ ∃ a b, currency = a ++ index ++ b := by
  constructor
  · intro hnone
    rintro ⟨a, b, hab⟩
    obtain ⟨pre, post, hb⟩ := breakAt_some_of_occurs index currency a b hab
    have hofn := goIndex_breakAt_some index currency pre post hb
    have hev := NewCurrencyPairFromIndex_of_goIndex currency index pre.length hofn
    rw [hnone] at hev
    exact Option.noConfusion hev
  · intro hno
    have hneg : goIndex currency index = -1 := (goIndex_eq_neg_one_iff _ _).mpr hno
    simp only [NewCurrencyPairFromIndex, hneg]
    rw [if_neg (by decide), if_neg (by decide)]

/-- C6: `Equal` is reflexive and symmetric in both modes; in the non-exact
mode every pair equals its own `Swap`; and the stored delimiters play no
role in the comparison. -/
theorem C6_equal_reflexive_symmetric_swap_blind (a b p : CurrencyPair)
    (exact : Bool) (d e : List Char) :
    CurrencyPair.Equal a a exact = true ∧
    CurrencyPair.Equal a b exact = CurrencyPair.Equal b a exact ∧
    CurrencyPair.Equal p (CurrencyPair.Swap p) false = true ∧
    CurrencyPair.Equal { a with Delimiter := d } { b with Delimiter := e } exact =
      CurrencyPair.Equal a b exact := by
  refine ⟨?_, ?_, ?_, ?_⟩
  · cases exact <;> simp [CurrencyPair.Equal]
  · cases exact <;> simp only [CurrencyPair.Equal, Bool.not_false, Bool.not_true,
      if_true, Bool.false_eq_true, if_false, decide_eq_decide] <;> tauto
  · simp [CurrencyPair.Equal, CurrencyPair.Swap]
  · cases exact <;> simp [CurrencyPair.Equal]

/-- C7: `CopyPairFormat` returns the first element of the list that equals
the target under the requested mode, and with no matching element it
returns the zero-value `CurrencyPair` (empty legs, empty delimiter)
instead of signaling an error. -/
theorem C7_copyFormat_first_match_or_zero (p q : CurrencyPair)
    (pairs l1 l2 : List CurrencyPair) (exact : Bool) :
    ((∀ r ∈ pairs, CurrencyPair.Equal p r exact = false) →
      CopyPairFormat p pairs exact = ⟨[], [], []⟩) ∧
    (pairs = l1 ++ q :: l2 →
      CurrencyPair.Equal p q exact = true →
      (∀ r ∈ l1, CurrencyPair.Equal p r exact = false) →
      CopyPairFormat p pairs exact = q) := by
  constructor
  · induction pairs with
    | nil => intro _; rfl
    | cons x xs ih =>
      intro hall
      have hx := hall x (by simp)
      simp only [CopyPairFormat, hx, Bool.false_eq_true, if_false]
      exact ih fun r hr => hall r (List.mem_cons_of_mem x hr)
  · rintro rfl hq
    induction l1 with
    | nil =>
      intro _
      simp only [List.nil_append, CopyPairFormat]
      rw [if_pos hq]
    | cons x xs ih =>
      intro hl1
      have hx := hl1 x (by simp)
      simp only [List.cons_append, CopyPairFormat, hx, Bool.false_eq_true, if_false]
      exact ih fun r hr => hl1 r (List.mem_cons_of_mem x hr)

/-- Witness for C7: the second list element is the first match. -/
theorem C7_copyFormat_first_match_or_zero_witness :
    CopyPairFormat ⟨[], ['B'], ['C']⟩
      [⟨['-'], ['X'], ['Y']⟩, ⟨['-'], ['B'], ['C']⟩] true = ⟨['-'], ['B'], ['C']⟩ :=
  (C7_copyFormat_first_match_or_zero ⟨[], ['B'], ['C']⟩ ⟨['-'], ['B'], ['C']⟩
      [⟨['-'], ['X'], ['Y']⟩, ⟨['-'], ['B'], ['C']⟩] [⟨['-'], ['X'], ['Y']⟩] []
      true).2 rfl (by decide) (by decide)

/-- C8: `RemovePairsByFilter` keeps exactly the elements on which
`ContainsCurrency` with the given code is false, in their original
relative order (it is the order-preserving filter, hence a sublist), and
therefore never lengthens the list. -/
theorem C8_removeByFilter_filters_in_order (pairs : List CurrencyPair) (code : List Char) :
    RemovePairsByFilter pairs code =
      pairs.filter (fun q => !ContainsCurrency q code) ∧
    List.Sublist (RemovePairsByFilter pairs code) pairs ∧
    (RemovePairsByFilter pairs code).length ≤ pairs.length := by
  have hf : RemovePairsByFilter pairs code =
      pairs.filter (fun q => !ContainsCurrency q code) := by
    induction pairs with
    | nil => rfl
    | cons x xs ih =>
      cases hx : ContainsCurrency x code <;>
        simp [RemovePairsByFilter, List.filter_cons, hx, ih]
  refine ⟨hf, ?_, ?_⟩
  · rw [hf]
    exact List.filter_sublist pairs
  · rw [hf]
    exact List.length_filter_le _ pairs

/-- C10: exact equality implies non-exact equality: the default mode
accepts every pairing the exact mode accepts. -/
theorem C10_exact_implies_nonexact (a b : CurrencyPair)
    (h : CurrencyPair.Equal a b true = true) :
    CurrencyPair.Equal a b false = true := by
  simp only [CurrencyPair.Equal, Bool.not_true, Bool.false_eq_true, if_false,
    decide_eq_true_eq] at h
  simp only [CurrencyPair.Equal, Bool.not_false, if_true, decide_eq_true_eq]
  exact Or.inl h

/-- Witness for C10 on a case-differing pair. -/
theorem C10_exact_implies_nonexact_witness :
    CurrencyPair.Equal ⟨[], ['B'], ['C']⟩ ⟨['-'], ['b'], ['c']⟩ false = true :=
  C10_exact_implies_nonexact ⟨[], ['B'], ['C']⟩ ⟨['-'], ['b'], ['c']⟩ (by decide)
